import Mathlib

/-!
Verification of the letter-puzzle board generator
(`src/01-LetterPuzzleMaker/index.js`, identical core in
`src/02-CowLetterPuzzle/src/index.js`).

The JavaScript `Board` class is embedded shallowly:

* a grid is a total function `Nat → Nat → Char`, the empty cell being the
  sentinel character `'.'` exactly as in the source;
* words are `List Char` (JS strings indexed character by character);
* the word set `WORD_SET` is a `List (List Char)` queried with
  `List.contains`, matching the exact-equality semantics of JS `Set.has`;
* the source's early `return false` paths become `Option` or explicit
  boolean short-circuits with the same result;
* JS runtime faults (reading `.length` of `undefined`, indexing past an
  array row) are modelled by `Option`-valued "checked" variants returning
  `none` where the original program would throw;
* wall-clock time (`Date.now()`) and randomness (`Math.random()`) are
  abstracted into explicit parameters: `elapsed k` is the elapsed-time
  observation at the `k`-th loop check, `gen k` the board built by the
  `k`-th `new Board(size)` call, and `pickWord i` / `pickPlace i` the
  random draws of cycle `i`.
-/

namespace Portfolio

/-- Cells hold the sentinel `"."` for empty, mirroring
`Array(this.size).fill(".")` in the constructor. -/
def emptyTile : Char := '.'

/-- A grid of tiles, `this.tiles[r][c]` becoming `tiles r c`. -/
abbrev Grid := Nat → Nat → Char

/-- The mutable state of the JS `Board` object: its `size`, its `tiles`
matrix and the `totalPlacements` counter. -/
structure Board where
  size : Nat
  tiles : Grid
  totalPlacements : Nat

/-- The freshly constructed board: every tile `"."`, counter `0`
(the counter is reset at the start of `makePuzzle`). -/
def initBoard (n : Nat) : Board :=
  { size := n, tiles := fun _ _ => emptyTile, totalPlacements := 0 }

/-- `getDeltas(horizontal)`: the per-letter step, `[0, 1]` for horizontal
words and `[1, 0]` for vertical ones. -/
def getDeltas (horizontal : Bool) : Nat × Nat :=
  if horizontal then (0, 1) else (1, 0)

/-- `getWordMask(horizontal, r, c, word, searchRow, searchColumn)`:
the value of cell `(searchRow, searchColumn)` as if `word` had been
placed at `(r, c)`, without modifying the board.  The JS bound
`searchColumn >= c + word.length` is written `c + word.length ≤
searchColumn`. -/
def getWordMask (b : Board) (horizontal : Bool) (r c : Nat) (word : List Char)
    (searchRow searchColumn : Nat) : Char :=
  if horizontal then
    if searchRow ≠ r ∨ searchColumn < c ∨ c + word.length ≤ searchColumn then
      b.tiles searchRow searchColumn
    else
      word.getD (searchColumn - c) emptyTile
  else
    if searchColumn ≠ c ∨ searchRow < r ∨ r + word.length ≤ searchRow then
      b.tiles searchRow searchColumn
    else
      word.getD (searchRow - r) emptyTile

/-- A single assignment `this.tiles[ur][uc] = v` on a functional grid. -/
def updateTile (g : Grid) (ur uc : Nat) (v : Char) : Grid :=
  fun sr sc => if sr = ur ∧ sc = uc then v else g sr sc

/-- `actuallyPlaceWord(word, horizontal, r, c)`: increment the counter and
write each letter of `word` into its cell, in loop order. -/
def actuallyPlaceWord (b : Board) (word : List Char) (horizontal : Bool)
    (r c : Nat) : Board :=
  let dd := getDeltas horizontal
  { size := b.size
    totalPlacements := b.totalPlacements + 1
    tiles := (List.range word.length).foldl
      (fun g i => updateTile g (r + dd.1 * i) (c + dd.2 * i)
        (word.getD i emptyTile)) b.tiles }

/-- The first loop of `isValidPlacement`: walk the letters of the word
(the remaining suffix paired with its running index `i`), rejecting on a
hard letter conflict (`none`), otherwise counting `overlaps` and
`standalone` positions. -/
def conflictLoopGo (b : Board) (dr dc r c : Nat) :
    List Char → Nat → Nat → Nat → Option (Nat × Nat)
  | [], _, overlaps, standalone => some (overlaps, standalone)
  | ch :: rest, i, overlaps, standalone =>
    let boardTile := b.tiles (r + dr * i) (c + dc * i)
    if boardTile ≠ emptyTile then
      if boardTile ≠ ch then none
      else conflictLoopGo b dr dc r c rest (i + 1) (overlaps + 1) standalone
    else conflictLoopGo b dr dc r c rest (i + 1) overlaps (standalone + 1)

/-- The inner column loop of the validity rescan in `isValidPlacement`:
accumulate consecutive non-empty characters into `acc`; whenever a run is
terminated by a `"."` or by the end of the line, a run of length `≥ 2`
must be in the word set, otherwise the whole placement is rejected. -/
def scanLine (lex : List (List Char)) (acc : List Char) :
    List Char → Bool
  | [] =>
    if 2 ≤ acc.length ∧ ¬ lex.contains acc = true then false else true
  | ch :: rest =>
    if ch = emptyTile then
      if 2 ≤ acc.length ∧ ¬ lex.contains acc = true then false
      else scanLine lex [] rest
    else scanLine lex (acc ++ [ch]) rest

/-- The sequence of characters the rescan reads for a fixed `flip` and
outer index `sr`: `getWordMask` at `(sr, sc)` for rows (`flip = false`)
and at `(sc, sr)` for columns (`flip = true`). -/
def maskedLine (b : Board) (horizontal : Bool) (r c : Nat) (word : List Char)
    (flip : Bool) (sr : Nat) : List Char :=
  (List.range b.size).map fun sc =>
    getWordMask b horizontal r c word (if flip then sc else sr)
      (if flip then sr else sc)

/-- The full row-and-column rescan of `isValidPlacement`: rows first, then
columns, every line scanned on the masked grid. -/
def globalScan (lex : List (List Char)) (b : Board) (horizontal : Bool)
    (r c : Nat) (word : List Char) : Bool :=
  [false, true].all fun flip =>
    (List.range b.size).all fun sr =>
      scanLine lex [] (maskedLine b horizontal r c word flip sr)

/-- `isValidPlacement(horizontal, r, c, word)`: hard-conflict scan and
overlap/standalone counting, the local admissibility gate, then the
global row/column rescan. -/
def isValidPlacement (lex : List (List Char)) (b : Board) (horizontal : Bool)
    (r c : Nat) (word : List Char) : Bool :=
  match conflictLoopGo b (getDeltas horizontal).1 (getDeltas horizontal).2
      r c word 0 0 0 with
  | none => false
  | some (overlaps, standalone) =>
    if (0 < b.totalPlacements ∧ overlaps = 0) ∨ standalone = 0 then false
    else globalScan lex b horizontal r c word

/-! ### Commit / simulation agreement -/

lemma foldl_update_horiz (word : List Char) (r c sr sc : Nat) :
    ∀ (l : List Nat) (g : Grid),
      (l.foldl (fun g i => updateTile g r (c + i) (word.getD i emptyTile)) g) sr sc =
        if sr = r ∧ c ≤ sc ∧ (sc - c) ∈ l then word.getD (sc - c) emptyTile
        else g sr sc := by
  intro l
  induction l with
  | nil => intro g; simp
  | cons i l ih =>
    intro g
    rw [List.foldl_cons, ih]
    by_cases h1 : sr = r ∧ c ≤ sc ∧ (sc - c) ∈ l
    · simp only [h1, if_pos]
      have : sr = r ∧ c ≤ sc ∧ (sc - c) ∈ i :: l := ⟨h1.1, h1.2.1, List.mem_cons_of_mem _ h1.2.2⟩
      simp [this]
    · rw [if_neg h1]
      by_cases h2 : sr = r ∧ sc = c + i
      · have hsub : sc - c = i := by omega
        have : sr = r ∧ c ≤ sc ∧ (sc - c) ∈ i :: l := by
          refine ⟨h2.1, by omega, ?_⟩
          rw [hsub]; exact List.mem_cons_self _ _
        simp [this, updateTile, h2, hsub]
      · have : ¬ (sr = r ∧ c ≤ sc ∧ (sc - c) ∈ i :: l) := by
          rintro ⟨ha, hb, hc⟩
          rcases List.mem_cons.mp hc with h | h
          · exact h2 ⟨ha, by omega⟩
          · exact h1 ⟨ha, hb, h⟩
        rw [if_neg this]
        simp only [updateTile]
        rw [if_neg (by tauto)]

lemma foldl_update_vert (word : List Char) (r c sr sc : Nat) :
    ∀ (l : List Nat) (g : Grid),
      (l.foldl (fun g i => updateTile g (r + i) c (word.getD i emptyTile)) g) sr sc =
        if sc = c ∧ r ≤ sr ∧ (sr - r) ∈ l then word.getD (sr - r) emptyTile
        else g sr sc := by
  intro l
  induction l with
  | nil => intro g; simp
  | cons i l ih =>
    intro g
    rw [List.foldl_cons, ih]
    by_cases h1 : sc = c ∧ r ≤ sr ∧ (sr - r) ∈ l
    · simp only [h1, if_pos]
      have : sc = c ∧ r ≤ sr ∧ (sr - r) ∈ i :: l := ⟨h1.1, h1.2.1, List.mem_cons_of_mem _ h1.2.2⟩
      simp [this]
    · rw [if_neg h1]
      by_cases h2 : sr = r + i ∧ sc = c
      · have hsub : sr - r = i := by omega
        have : sc = c ∧ r ≤ sr ∧ (sr - r) ∈ i :: l := by
          refine ⟨h2.2, by omega, ?_⟩
          rw [hsub]; exact List.mem_cons_self _ _
        simp [this, updateTile, h2, hsub]
      · have : ¬ (sc = c ∧ r ≤ sr ∧ (sr - r) ∈ i :: l) := by
          rintro ⟨ha, hb, hc⟩
          rcases List.mem_cons.mp hc with h | h
          · exact h2 ⟨by omega, ha⟩
          · exact h1 ⟨ha, hb, h⟩
        rw [if_neg this]
        simp only [updateTile]
        rw [if_neg (by tauto)]

/-- The tiles after `actuallyPlaceWord` agree, at every coordinate, with
the non-mutating simulation `getWordMask` computed before the commit. -/
lemma placed_tiles (b : Board) (word : List Char) (horizontal : Bool)
    (r c sr sc : Nat) :
    (actuallyPlaceWord b word horizontal r c).tiles sr sc =
      getWordMask b horizontal r c word sr sc := by
  cases horizontal with
  | true =>
    show ((List.range word.length).foldl
        (fun g i => updateTile g (r + 0 * i) (c + 1 * i) (word.getD i emptyTile))
        b.tiles) sr sc =
      (if sr ≠ r ∨ sc < c ∨ c + word.length ≤ sc then b.tiles sr sc
       else word.getD (sc - c) emptyTile)
    simp only [Nat.zero_mul, Nat.add_zero, Nat.one_mul]
    rw [foldl_update_horiz]
    simp only [List.mem_range]
    by_cases h : sr = r ∧ c ≤ sc ∧ sc - c < word.length
    · rw [if_pos h, if_neg (by omega)]
    · rw [if_neg h, if_pos (by omega)]
  | false =>
    show ((List.range word.length).foldl
        (fun g i => updateTile g (r + 1 * i) (c + 0 * i) (word.getD i emptyTile))
        b.tiles) sr sc =
      (if sc ≠ c ∨ sr < r ∨ r + word.length ≤ sr then b.tiles sr sc
       else word.getD (sr - r) emptyTile)
    simp only [Nat.zero_mul, Nat.add_zero, Nat.one_mul]
    rw [foldl_update_vert]
    simp only [List.mem_range]
    by_cases h : sc = c ∧ r ≤ sr ∧ sr - r < word.length
    · rw [if_pos h, if_neg (by omega)]
    · rw [if_neg h, if_pos (by omega)]

@[simp] lemma actuallyPlaceWord_size (b : Board) (word : List Char)
    (horizontal : Bool) (r c : Nat) :
    (actuallyPlaceWord b word horizontal r c).size = b.size := rfl

@[simp] lemma actuallyPlaceWord_totalPlacements (b : Board) (word : List Char)
    (horizontal : Bool) (r c : Nat) :
    (actuallyPlaceWord b word horizontal r c).totalPlacements =
      b.totalPlacements + 1 := rfl

/-- C10: for every grid state, orientation, start position, word and every
in-bounds coordinate `(sr, sc)`, the value `getWordMask` computes on the
unmodified grid equals the value stored at `(sr, sc)` after
`actuallyPlaceWord` commits the word: the validator's non-mutating
simulation is exactly the grid that commitment produces. -/
theorem c10_mask_commit_agreement (b : Board) (word : List Char)
    (horizontal : Bool) (r c sr sc : Nat)
    (_hsr : sr < b.size) (_hsc : sc < b.size) :
    getWordMask b horizontal r c word sr sc =
      (actuallyPlaceWord b word horizontal r c).tiles sr sc :=
  (placed_tiles b word horizontal r c sr sc).symm

/-- Witness for C10 at a concrete input: a 2 by 2 board, the word `"ab"`
placed horizontally at the origin, inspected at cell `(0, 1)`. -/
theorem c10_mask_commit_agreement_witness :
    getWordMask (initBoard 2) true 0 0 ['a', 'b'] 0 1 =
      (actuallyPlaceWord (initBoard 2) ['a', 'b'] true 0 0).tiles 0 1 :=
  c10_mask_commit_agreement (initBoard 2) ['a', 'b'] true 0 0 0 1
    (by decide) (by decide)

/-! ### The hard-conflict scan and the overlap / standalone counts -/

/-- The board cell under letter index `i` of the candidate word. -/
def letterCell (b : Board) (horizontal : Bool) (r c i : Nat) : Char :=
  b.tiles (r + (getDeltas horizontal).1 * i) (c + (getDeltas horizontal).2 * i)

/-- Position `i` holding character `ch` is a hard letter conflict: the
existing cell is non-empty and differs from the word's letter. -/
def conflictAt (b : Board) (horizontal : Bool) (r c : Nat) (i : Nat)
    (ch : Char) : Bool :=
  !(letterCell b horizontal r c i == emptyTile) &&
    !(letterCell b horizontal r c i == ch)

/-- Position `i` holding character `ch` is an overlap: the existing cell
already holds exactly that letter. -/
def overlapAt (b : Board) (horizontal : Bool) (r c : Nat) (i : Nat)
    (ch : Char) : Bool :=
  !(letterCell b horizontal r c i == emptyTile) &&
    (letterCell b horizontal r c i == ch)

/-- Position `i` is standalone: the existing cell is empty. -/
def standaloneAt (b : Board) (horizontal : Bool) (r c : Nat) (i : Nat) : Bool :=
  letterCell b horizontal r c i == emptyTile

/-- Some occupied cell under the word differs from the word's letter at
that offset. -/
def hardConflict (b : Board) (horizontal : Bool) (r c : Nat)
    (word : List Char) : Bool :=
  (List.range word.length).any fun i =>
    conflictAt b horizontal r c i (word.getD i emptyTile)

/-- The number of word positions whose existing letter already matches. -/
def overlapCount (b : Board) (horizontal : Bool) (r c : Nat)
    (word : List Char) : Nat :=
  (List.range word.length).countP fun i =>
    overlapAt b horizontal r c i (word.getD i emptyTile)

/-- The number of word positions currently empty. -/
def standaloneCount (b : Board) (horizontal : Bool) (r c : Nat)
    (word : List Char) : Nat :=
  (List.range word.length).countP fun i => standaloneAt b horizontal r c i

/-- Suffix-count of overlaps, following the loop from index `i`. -/
def cntOverlap (b : Board) (horizontal : Bool) (r c : Nat) :
    List Char → Nat → Nat
  | [], _ => 0
  | ch :: rest, i =>
    (if overlapAt b horizontal r c i ch then 1 else 0) +
      cntOverlap b horizontal r c rest (i + 1)

/-- Suffix-count of standalone positions, following the loop from `i`. -/
def cntStandalone (b : Board) (horizontal : Bool) (r c : Nat) :
    List Char → Nat → Nat
  | [], _ => 0
  | _ :: rest, i =>
    (if standaloneAt b horizontal r c i then 1 else 0) +
      cntStandalone b horizontal r c rest (i + 1)

lemma conflictLoopGo_eq_none_iff (b : Board) (horizontal : Bool) (r c : Nat) :
    ∀ (rest : List Char) (i o s : Nat),
      conflictLoopGo b (getDeltas horizontal).1 (getDeltas horizontal).2 r c
          rest i o s = none ↔
        ∃ j, j < rest.length ∧
          conflictAt b horizontal r c (i + j) (rest.getD j emptyTile) = true := by
  intro rest
  induction rest with
  | nil => intro i o s; simp [conflictLoopGo]
  | cons ch rest ih =>
    intro i o s
    unfold conflictLoopGo
    by_cases hne : b.tiles (r + (getDeltas horizontal).1 * i)
        (c + (getDeltas horizontal).2 * i) ≠ emptyTile
    · rw [if_pos hne]
      by_cases hch : b.tiles (r + (getDeltas horizontal).1 * i)
          (c + (getDeltas horizontal).2 * i) ≠ ch
      · rw [if_pos hch]
        constructor
        · intro _
          refine ⟨0, by simp, ?_⟩
          simp only [conflictAt, letterCell, List.getD_cons_zero, Nat.add_zero,
            Bool.and_eq_true, Bool.not_eq_true', beq_eq_false_iff_ne, ne_eq]
          exact ⟨hne, hch⟩
        · intro _; rfl
      · rw [if_neg hch, ih]
        push_neg at hch
        constructor
        · rintro ⟨j, hj, hc⟩
          refine ⟨j + 1, by simp only [List.length_cons]; omega, ?_⟩
          rw [List.getD_cons_succ, show i + (j + 1) = i + 1 + j from by omega]
          exact hc
        · rintro ⟨j, hj, hc⟩
          cases j with
          | zero =>
            exfalso
            simp only [conflictAt, letterCell, List.getD_cons_zero,
              Nat.add_zero, Bool.and_eq_true, Bool.not_eq_true',
              beq_eq_false_iff_ne, ne_eq] at hc
            exact hc.2 hch
          | succ j =>
            refine ⟨j, by simp only [List.length_cons] at hj; omega, ?_⟩
            rw [show i + 1 + j = i + (j + 1) from by omega]
            rw [List.getD_cons_succ] at hc
            exact hc
    · rw [if_neg hne, ih]
      push_neg at hne
      constructor
      · rintro ⟨j, hj, hc⟩
        refine ⟨j + 1, by simp only [List.length_cons]; omega, ?_⟩
        rw [List.getD_cons_succ, show i + (j + 1) = i + 1 + j from by omega]
        exact hc
      · rintro ⟨j, hj, hc⟩
        cases j with
        | zero =>
          exfalso
          simp only [conflictAt, letterCell, List.getD_cons_zero,
            Nat.add_zero, Bool.and_eq_true, Bool.not_eq_true',
            beq_eq_false_iff_ne, ne_eq] at hc
          exact hc.1 hne
        | succ j =>
          refine ⟨j, by simp only [List.length_cons] at hj; omega, ?_⟩
          rw [show i + 1 + j = i + (j + 1) from by omega]
          rw [List.getD_cons_succ] at hc
          exact hc

lemma conflictLoopGo_eq_some (b : Board) (horizontal : Bool) (r c : Nat) :
    ∀ (rest : List Char) (i o s : Nat),
      (∀ j, j < rest.length →
        conflictAt b horizontal r c (i + j) (rest.getD j emptyTile) = false) →
      conflictLoopGo b (getDeltas horizontal).1 (getDeltas horizontal).2 r c
          rest i o s =
        some (o + cntOverlap b horizontal r c rest i,
              s + cntStandalone b horizontal r c rest i) := by
  intro rest
  induction rest with
  | nil => intro i o s _; simp [conflictLoopGo, cntOverlap, cntStandalone]
  | cons ch rest ih =>
    intro i o s hnc
    have h0 := hnc 0 (by simp)
    simp only [conflictAt, letterCell, List.getD_cons_zero, Nat.add_zero,
      Bool.and_eq_false_iff, Bool.not_eq_false', beq_iff_eq] at h0
    have hrest : ∀ j, j < rest.length →
        conflictAt b horizontal r c (i + 1 + j) (rest.getD j emptyTile) = false := by
      intro j hj
      have := hnc (j + 1) (by simp only [List.length_cons]; omega)
      rw [List.getD_cons_succ] at this
      rw [show i + 1 + j = i + (j + 1) from by omega]
      exact this
    unfold conflictLoopGo
    by_cases hne : b.tiles (r + (getDeltas horizontal).1 * i)
        (c + (getDeltas horizontal).2 * i) ≠ emptyTile
    · rw [if_pos hne]
      have hch : b.tiles (r + (getDeltas horizontal).1 * i)
          (c + (getDeltas horizontal).2 * i) = ch := by
        rcases h0 with h | h
        · exact absurd h hne
        · simpa [Bool.not_eq_false', beq_iff_eq] using h
      rw [if_neg (by simp [hch])]
      rw [ih (i + 1) (o + 1) s hrest]
      have hov : overlapAt b horizontal r c i ch = true := by
        simp only [overlapAt, letterCell, Bool.and_eq_true, Bool.not_eq_true',
          beq_eq_false_iff_ne, ne_eq, beq_iff_eq]
        exact ⟨hne, hch⟩
      have hst : standaloneAt b horizontal r c i = false := by
        simp only [standaloneAt, letterCell, beq_eq_false_iff_ne, ne_eq]
        exact hne
      simp only [cntOverlap, cntStandalone, hov, hst, eq_self_iff_true,
        Bool.false_eq_true, if_true, if_false, Option.some.injEq,
        Prod.mk.injEq]
      exact ⟨by omega, by omega⟩
    · rw [if_neg hne]
      push_neg at hne
      rw [ih (i + 1) o (s + 1) hrest]
      have hov : overlapAt b horizontal r c i ch = false := by
        simp [overlapAt, letterCell, hne]
      have hst : standaloneAt b horizontal r c i = true := by
        simp [standaloneAt, letterCell, hne]
      simp only [cntOverlap, cntStandalone, hov, hst, eq_self_iff_true,
        Bool.false_eq_true, if_true, if_false, Option.some.injEq,
        Prod.mk.injEq]
      exact ⟨by omega, by omega⟩

lemma cntOverlap_eq_countP (b : Board) (horizontal : Bool) (r c : Nat) :
    ∀ (rest : List Char) (i : Nat),
      cntOverlap b horizontal r c rest i =
        (List.range rest.length).countP fun j =>
          overlapAt b horizontal r c (i + j) (rest.getD j emptyTile) := by
  intro rest
  induction rest with
  | nil => intro i; simp [cntOverlap]
  | cons ch rest ih =>
    intro i
    have hmap : (List.range (ch :: rest).length).countP
        (fun j => overlapAt b horizontal r c (i + j)
          ((ch :: rest).getD j emptyTile)) =
        ((List.range rest.length).countP
          (fun j => overlapAt b horizontal r c (i + 1 + j)
            (rest.getD j emptyTile)))
          + (if overlapAt b horizontal r c i ch then 1 else 0) := by
      rw [List.length_cons, List.range_succ_eq_map, List.countP_cons,
        List.countP_map]
      have hcp : (List.range rest.length).countP
          ((fun j => overlapAt b horizontal r c (i + j)
            ((ch :: rest).getD j emptyTile)) ∘ Nat.succ) =
          (List.range rest.length).countP
          (fun j => overlapAt b horizontal r c (i + 1 + j)
            (rest.getD j emptyTile)) := by
        refine List.countP_congr ?_
        intro j _
        simp only [Function.comp_apply, List.getD_cons_succ,
          Nat.succ_eq_add_one]
        rw [show i + (j + 1) = i + 1 + j from by omega]
      rw [hcp]
      simp
    rw [hmap]
    simp only [cntOverlap, ih]
    omega

lemma cntStandalone_eq_countP (b : Board) (horizontal : Bool) (r c : Nat) :
    ∀ (rest : List Char) (i : Nat),
      cntStandalone b horizontal r c rest i =
        (List.range rest.length).countP fun j =>
          standaloneAt b horizontal r c (i + j) := by
  intro rest
  induction rest with
  | nil => intro i; simp [cntStandalone]
  | cons ch rest ih =>
    intro i
    have hmap : (List.range (ch :: rest).length).countP
        (fun j => standaloneAt b horizontal r c (i + j)) =
        ((List.range rest.length).countP
          (fun j => standaloneAt b horizontal r c (i + 1 + j)))
          + (if standaloneAt b horizontal r c i then 1 else 0) := by
      rw [List.length_cons, List.range_succ_eq_map, List.countP_cons,
        List.countP_map]
      have hcp : (List.range rest.length).countP
          ((fun j => standaloneAt b horizontal r c (i + j)) ∘ Nat.succ) =
          (List.range rest.length).countP
          (fun j => standaloneAt b horizontal r c (i + 1 + j)) := by
        refine List.countP_congr ?_
        intro j _
        simp only [Function.comp_apply, Nat.succ_eq_add_one]
        rw [show i + (j + 1) = i + 1 + j from by omega]
      rw [hcp]
      simp
    rw [hmap]
    simp only [cntStandalone, ih]
    omega

lemma hardConflict_iff (b : Board) (horizontal : Bool) (r c : Nat)
    (word : List Char) :
    hardConflict b horizontal r c word = true ↔
      ∃ j, j < word.length ∧
        conflictAt b horizontal r c j (word.getD j emptyTile) = true := by
  unfold hardConflict
  rw [List.any_eq_true]
  constructor
  · rintro ⟨j, hj, hc⟩
    exact ⟨j, List.mem_range.mp hj, hc⟩
  · rintro ⟨j, hj, hc⟩
    exact ⟨j, List.mem_range.mpr hj, hc⟩

lemma conflictLoopGo_word_none_iff (b : Board) (horizontal : Bool)
    (r c : Nat) (word : List Char) :
    conflictLoopGo b (getDeltas horizontal).1 (getDeltas horizontal).2 r c
        word 0 0 0 = none ↔
      hardConflict b horizontal r c word = true := by
  rw [conflictLoopGo_eq_none_iff, hardConflict_iff]
  simp only [Nat.zero_add]

lemma conflictLoopGo_word_some (b : Board) (horizontal : Bool)
    (r c : Nat) (word : List Char)
    (h : hardConflict b horizontal r c word = false) :
    conflictLoopGo b (getDeltas horizontal).1 (getDeltas horizontal).2 r c
        word 0 0 0 =
      some (overlapCount b horizontal r c word,
            standaloneCount b horizontal r c word) := by
  have hnc : ∀ j, j < word.length →
      conflictAt b horizontal r c (0 + j) (word.getD j emptyTile) = false := by
    intro j hj
    rw [Nat.zero_add]
    cases hcj : conflictAt b horizontal r c j (word.getD j emptyTile) with
    | false => rfl
    | true =>
      exfalso
      have hhc : hardConflict b horizontal r c word = true :=
        (hardConflict_iff b horizontal r c word).mpr ⟨j, hj, hcj⟩
      rw [h] at hhc
      exact Bool.false_ne_true hhc
  rw [conflictLoopGo_eq_some b horizontal r c word 0 0 0 hnc]
  rw [cntOverlap_eq_countP, cntStandalone_eq_countP]
  simp only [Nat.zero_add]
  rfl

lemma isValidPlacement_eq_gate (lex : List (List Char)) (b : Board)
    (horizontal : Bool) (r c : Nat) (word : List Char) :
    isValidPlacement lex b horizontal r c word =
      (decide (hardConflict b horizontal r c word = false) &&
       decide (standaloneCount b horizontal r c word ≠ 0) &&
       decide (b.totalPlacements = 0 ∨ overlapCount b horizontal r c word ≠ 0) &&
       globalScan lex b horizontal r c word) := by
  unfold isValidPlacement
  by_cases hhc : hardConflict b horizontal r c word = true
  · rw [(conflictLoopGo_word_none_iff b horizontal r c word).mpr hhc]
    simp [hhc]
  · have hhc' : hardConflict b horizontal r c word = false := by
      revert hhc; cases hardConflict b horizontal r c word <;> simp
    rw [conflictLoopGo_word_some b horizontal r c word hhc']
    show (if (0 < b.totalPlacements ∧ overlapCount b horizontal r c word = 0) ∨
        standaloneCount b horizontal r c word = 0 then false
      else globalScan lex b horizontal r c word) = _
    by_cases hgate : (0 < b.totalPlacements ∧
        overlapCount b horizontal r c word = 0) ∨
        standaloneCount b horizontal r c word = 0
    · rw [if_pos hgate]
      rcases hgate with ⟨htp, hov⟩ | hst
      · have : ¬ (b.totalPlacements = 0 ∨
            overlapCount b horizontal r c word ≠ 0) := by omega
        simp [this]
      · simp [hst]
    · rw [if_neg hgate]
      push_neg at hgate
      have h1 : standaloneCount b horizontal r c word ≠ 0 := hgate.2
      have h2 : b.totalPlacements = 0 ∨
          overlapCount b horizontal r c word ≠ 0 := by
        rcases Nat.eq_zero_or_pos b.totalPlacements with h | h
        · exact Or.inl h
        · exact Or.inr (hgate.1 h)
      simp [hhc', h1, h2]

/-- C2: the local admissibility gate of `isValidPlacement` is exactly:
no occupied cell under the word differs from the word's letter there
(`hardConflict = false`), at least one covered position is empty
(`standaloneCount ≠ 0`), and — unless this is the very first placement
(`totalPlacements = 0`), which is exempt — at least one covered position
already matches (`overlapCount ≠ 0`); when the gate passes, the result is
that of the global rescan. -/
theorem c2_local_admissibility (lex : List (List Char)) (b : Board)
    (horizontal : Bool) (r c : Nat) (word : List Char) :
    isValidPlacement lex b horizontal r c word =
      (decide (hardConflict b horizontal r c word = false) &&
       decide (standaloneCount b horizontal r c word ≠ 0) &&
       decide (b.totalPlacements = 0 ∨ overlapCount b horizontal r c word ≠ 0) &&
       globalScan lex b horizontal r c word) :=
  isValidPlacement_eq_gate lex b horizontal r c word

/-! ### Density and commit preservation -/

/-- The occupied-cell count of `density()`: for each row, the number of
columns holding a letter (`char !== "."`), summed over all rows. -/
def occupiedCount (b : Board) : Nat :=
  ((List.range b.size).map fun sr =>
    (List.range b.size).countP fun sc => !(b.tiles sr sc == emptyTile)).sum

/-- `density()`: the proportion of tiles occupied by a letter,
`occupied / (size * size)`. -/
def density (b : Board) : ℚ :=
  (occupiedCount b : ℚ) / ((b.size : ℚ) * (b.size : ℚ))

lemma density_nonneg (b : Board) : 0 ≤ density b := by
  unfold density
  positivity

lemma valid_no_hardConflict (lex : List (List Char)) (b : Board)
    (horizontal : Bool) (r c : Nat) (word : List Char)
    (hv : isValidPlacement lex b horizontal r c word = true) :
    hardConflict b horizontal r c word = false := by
  cases hhc : hardConflict b horizontal r c word with
  | false => rfl
  | true =>
    exfalso
    unfold isValidPlacement at hv
    rw [(conflictLoopGo_word_none_iff b horizontal r c word).mpr hhc] at hv
    exact Bool.false_ne_true hv

lemma no_hardConflict_cell (b : Board) (horizontal : Bool) (r c : Nat)
    (word : List Char)
    (h : hardConflict b horizontal r c word = false) :
    ∀ i, i < word.length →
      letterCell b horizontal r c i = emptyTile ∨
      letterCell b horizontal r c i = word.getD i emptyTile := by
  intro i hi
  cases hcj : conflictAt b horizontal r c i (word.getD i emptyTile) with
  | true =>
    exfalso
    have : hardConflict b horizontal r c word = true :=
      (hardConflict_iff b horizontal r c word).mpr ⟨i, hi, hcj⟩
    rw [h] at this
    exact Bool.false_ne_true this
  | false =>
    simp only [conflictAt, Bool.and_eq_false_iff, Bool.not_eq_false',
      beq_iff_eq] at hcj
    rcases hcj with h1 | h1
    · exact Or.inl h1
    · exact Or.inr h1

/-- After a validated commit, tiles that were occupied keep their value. -/
lemma commit_keeps_occupied (lex : List (List Char)) (b : Board)
    (horizontal : Bool) (r c : Nat) (word : List Char)
    (hv : isValidPlacement lex b horizontal r c word = true) :
    ∀ sr sc, b.tiles sr sc ≠ emptyTile →
      (actuallyPlaceWord b word horizontal r c).tiles sr sc = b.tiles sr sc := by
  intro sr sc hocc
  rw [placed_tiles]
  have hnc := no_hardConflict_cell b horizontal r c word
    (valid_no_hardConflict lex b horizontal r c word hv)
  cases horizontal with
  | true =>
    show (if sr ≠ r ∨ sc < c ∨ c + word.length ≤ sc then b.tiles sr sc
      else word.getD (sc - c) emptyTile) = b.tiles sr sc
    by_cases hin : sr ≠ r ∨ sc < c ∨ c + word.length ≤ sc
    · rw [if_pos hin]
    · rw [if_neg hin]
      push_neg at hin
      have hi : sc - c < word.length := by omega
      have := hnc (sc - c) hi
      simp only [letterCell, getDeltas, if_pos, Nat.zero_mul, Nat.add_zero,
        Nat.one_mul] at this
      rw [show c + (sc - c) = sc from by omega] at this
      rw [hin.1] at hocc ⊢
      rcases this with h1 | h1
      · exact absurd h1 hocc
      · exact h1.symm
  | false =>
    show (if sc ≠ c ∨ sr < r ∨ r + word.length ≤ sr then b.tiles sr sc
      else word.getD (sr - r) emptyTile) = b.tiles sr sc
    by_cases hin : sc ≠ c ∨ sr < r ∨ r + word.length ≤ sr
    · rw [if_pos hin]
    · rw [if_neg hin]
      push_neg at hin
      have hi : sr - r < word.length := by omega
      have := hnc (sr - r) hi
      simp only [letterCell, getDeltas, Bool.false_eq_true, if_false,
        Nat.zero_mul, Nat.add_zero, Nat.one_mul] at this
      rw [show r + (sr - r) = sr from by omega] at this
      rw [hin.1] at hocc ⊢
      rcases this with h1 | h1
      · exact absurd h1 hocc
      · exact h1.symm

lemma commit_occupiedCount_mono (lex : List (List Char)) (b : Board)
    (horizontal : Bool) (r c : Nat) (word : List Char)
    (hv : isValidPlacement lex b horizontal r c word = true) :
    occupiedCount b ≤ occupiedCount (actuallyPlaceWord b word horizontal r c) := by
  unfold occupiedCount
  rw [actuallyPlaceWord_size]
  refine List.sum_le_sum ?_
  intro sr _
  refine List.countP_mono_left ?_
  intro sc _ hocc
  simp only [Bool.not_eq_true', beq_eq_false_iff_ne, ne_eq] at hocc ⊢
  rw [commit_keeps_occupied lex b horizontal r c word hv sr sc hocc]
  exact hocc

/-- C5: a validated commit writes only cells that were empty or already
held the same letter, never clears an occupied cell (occupied cells keep
their exact value), and therefore the board's density never decreases. -/
theorem c5_commit_monotone (lex : List (List Char)) (b : Board)
    (horizontal : Bool) (r c : Nat) (word : List Char)
    (hv : isValidPlacement lex b horizontal r c word = true) :
    (∀ i, i < word.length →
      letterCell b horizontal r c i = emptyTile ∨
      letterCell b horizontal r c i = word.getD i emptyTile) ∧
    (∀ sr sc, b.tiles sr sc ≠ emptyTile →
      (actuallyPlaceWord b word horizontal r c).tiles sr sc = b.tiles sr sc) ∧
    density b ≤ density (actuallyPlaceWord b word horizontal r c) := by
  refine ⟨no_hardConflict_cell b horizontal r c word
      (valid_no_hardConflict lex b horizontal r c word hv),
    commit_keeps_occupied lex b horizontal r c word hv, ?_⟩
  unfold density
  rw [actuallyPlaceWord_size]
  rcases Nat.eq_zero_or_pos b.size with h0 | hpos
  · simp [h0]
  · have hden : (0 : ℚ) < (b.size : ℚ) * (b.size : ℚ) := by
      have : (0 : ℚ) < (b.size : ℚ) := by exact_mod_cast hpos
      positivity
    rw [div_le_div_iff_of_pos_right hden]
    exact_mod_cast commit_occupiedCount_mono lex b horizontal r c word hv

/-- Witness for C5: the word `"ab"` placed horizontally at the origin of
an empty 2 by 2 board with lexicon `{"ab"}` is a valid placement, and the
commit-monotonicity conclusions hold there. -/
theorem c5_commit_monotone_witness :
    (∀ i, i < (['a', 'b'] : List Char).length →
      letterCell (initBoard 2) true 0 0 i = emptyTile ∨
      letterCell (initBoard 2) true 0 0 i = ['a', 'b'].getD i emptyTile) ∧
    (∀ sr sc, (initBoard 2).tiles sr sc ≠ emptyTile →
      (actuallyPlaceWord (initBoard 2) ['a', 'b'] true 0 0).tiles sr sc =
        (initBoard 2).tiles sr sc) ∧
    density (initBoard 2) ≤
      density (actuallyPlaceWord (initBoard 2) ['a', 'b'] true 0 0) :=
  c5_commit_monotone [['a', 'b']] (initBoard 2) true 0 0 ['a', 'b']
    (by decide)

/-! ### Maximal runs and the grid validity invariant -/

/-- The characters the board actually shows along a line: row `sr` for
`flip = false`, column `sr` for `flip = true` (mirroring the rescan's
index swap). -/
def lineOf (b : Board) (flip : Bool) (sr : Nat) : List Char :=
  (List.range b.size).map fun sc =>
    b.tiles (if flip then sc else sr) (if flip then sr else sc)

/-- `splitRuns acc cells`: the runs of consecutive non-empty characters of
`cells`, the first one extending the already-accumulated prefix `acc`;
the recursion mirrors `scanLine` exactly. -/
def splitRuns (acc : List Char) : List Char → List (List Char)
  | [] => [acc]
  | ch :: rest =>
    if ch = emptyTile then acc :: splitRuns [] rest
    else splitRuns (acc ++ [ch]) rest

/-- `[a, b)` is a maximal run of non-empty cells in `cells`: non-empty
throughout, and bounded on each side by an empty cell or the edge. -/
def maximalRun (cells : List Char) (a b : Nat) : Prop :=
  a < b ∧ b ≤ cells.length ∧
  (∀ j, a ≤ j → j < b → cells.getD j emptyTile ≠ emptyTile) ∧
  (a = 0 ∨ cells.getD (a - 1) emptyTile = emptyTile) ∧
  (b = cells.length ∨ cells.getD b emptyTile = emptyTile)

/-- The grid validity invariant of the specification: every maximal
horizontal or vertical run of length at least 2 spells a lexicon word. -/
def gridValid (lex : List (List Char)) (bd : Board) : Prop :=
  ∀ (flip : Bool) (sr : Nat), sr < bd.size →
    ∀ a b, maximalRun (lineOf bd flip sr) a b → 2 ≤ b - a →
      lex.contains ((lineOf bd flip sr).drop a |>.take (b - a)) = true

lemma scanLine_iff_splitRuns (lex : List (List Char)) :
    ∀ (cells acc : List Char),
      scanLine lex acc cells = true ↔
        ∀ run ∈ splitRuns acc cells, 2 ≤ run.length →
          lex.contains run = true := by
  intro cells
  induction cells with
  | nil =>
    intro acc
    simp only [scanLine, splitRuns, List.mem_singleton]
    by_cases h : 2 ≤ acc.length ∧ ¬ lex.contains acc = true
    · rw [if_pos h]
      constructor
      · intro hfalse; exact absurd hfalse Bool.false_ne_true
      · intro hall; exact absurd (hall acc rfl h.1) h.2
    · rw [if_neg h]
      push_neg at h
      constructor
      · intro _ run hrun hlen
        subst hrun; exact h hlen
      · intro _; rfl
  | cons ch rest ih =>
    intro acc
    simp only [scanLine, splitRuns]
    by_cases hch : ch = emptyTile
    · rw [if_pos hch, if_pos hch]
      by_cases h : 2 ≤ acc.length ∧ ¬ lex.contains acc = true
      · rw [if_pos h]
        constructor
        · intro hfalse; exact absurd hfalse Bool.false_ne_true
        · intro hall
          exact absurd (hall acc (List.mem_cons_self _ _) h.1) h.2
      · rw [if_neg h]
        push_neg at h
        rw [ih []]
        constructor
        · intro hall run hrun hlen
          rcases List.mem_cons.mp hrun with hr | hr
          · subst hr; exact h hlen
          · exact hall run hr hlen
        · intro hall run hrun hlen
          exact hall run (List.mem_cons_of_mem _ hrun) hlen
    · rw [if_neg hch, if_neg hch]
      exact ih (acc ++ [ch])

lemma run_mem_splitRuns_start :
    ∀ (cells acc : List Char) (b : Nat),
      b ≤ cells.length →
      (∀ j, j < b → cells.getD j emptyTile ≠ emptyTile) →
      (b = cells.length ∨ cells.getD b emptyTile = emptyTile) →
      (acc ++ cells.take b) ∈ splitRuns acc cells := by
  intro cells
  induction cells with
  | nil =>
    intro acc b hb _ _
    simp only [List.length_nil] at hb
    have hb0 : b = 0 := Nat.le_zero.mp hb
    subst hb0
    simp [splitRuns]
  | cons ch rest ih =>
    intro acc b hb hnonempty hend
    cases b with
    | zero =>
      have hch : ch = emptyTile := by
        rcases hend with h | h
        · exact absurd h.symm (by simp)
        · simpa using h
      simp only [splitRuns, if_pos hch, List.take_zero, List.append_nil]
      exact List.mem_cons_self _ _
    | succ b =>
      have hch : ch ≠ emptyTile := by
        have := hnonempty 0 (Nat.succ_pos b)
        simpa using this
      simp only [splitRuns, if_neg hch, List.take_succ_cons]
      have := ih (acc ++ [ch]) b (by simpa using hb)
        (fun j hj => by
          have := hnonempty (j + 1) (by omega)
          simpa using this)
        (by
          rcases hend with h | h
          · left; simpa using h
          · right; simpa using h)
      simpa [List.append_assoc] using this

lemma run_mem_splitRuns_inner :
    ∀ (cells : List Char) (a b : Nat), ∀ (acc : List Char),
      1 ≤ a → a < b → b ≤ cells.length →
      cells.getD (a - 1) emptyTile = emptyTile →
      (∀ j, a ≤ j → j < b → cells.getD j emptyTile ≠ emptyTile) →
      (b = cells.length ∨ cells.getD b emptyTile = emptyTile) →
      ((cells.drop a).take (b - a)) ∈ splitRuns acc cells := by
  intro cells
  induction cells with
  | nil =>
    intro a b acc _ hab hb _ _ _
    simp only [List.length_nil] at hb
    omega
  | cons ch rest ih =>
    intro a b acc ha hab hb hprev hnonempty hend
    cases a with
    | zero => omega
    | succ a =>
      cases b with
      | zero => omega
      | succ b =>
        simp only [List.drop_succ_cons, Nat.succ_sub_succ]
        cases a with
        | zero =>
          have hch : ch = emptyTile := by simpa using hprev
          simp only [splitRuns, if_pos hch]
          refine List.mem_cons_of_mem _ ?_
          have := run_mem_splitRuns_start rest [] b
            (by simpa using hb)
            (fun j hj => by
              have := hnonempty (j + 1) (by omega) (by omega)
              simpa using this)
            (by
              rcases hend with h | h
              · left; simpa using h
              · right; simpa using h)
          simpa using this
        | succ a =>
          have hprev' : rest.getD a emptyTile = emptyTile := by
            simpa using hprev
          have hih : ∀ acc2 : List Char,
              ((rest.drop (a + 1)).take (b - (a + 1))) ∈ splitRuns acc2 rest := by
            intro acc2
            refine ih (a + 1) b acc2 (by omega) (by omega)
              (by simpa using hb) (by simpa using hprev')
              (fun j hj1 hj2 => by
                have := hnonempty (j + 1) (by omega) (by omega)
                simpa using this)
              (by
                rcases hend with h | h
                · left; simpa using h
                · right; simpa using h)
          by_cases hch : ch = emptyTile
          · simp only [splitRuns, if_pos hch]
            exact List.mem_cons_of_mem _ (hih [])
          · simp only [splitRuns, if_neg hch]
            exact hih (acc ++ [ch])

lemma maximalRun_mem_splitRuns (cells : List Char)
    (a b : Nat) (h : maximalRun cells a b) :
    ((cells.drop a).take (b - a)) ∈ splitRuns [] cells := by
  obtain ⟨hab, hb, hnonempty, hstart, hend⟩ := h
  cases a with
  | zero =>
    have := run_mem_splitRuns_start cells [] b hb
      (fun j hj => hnonempty j (Nat.zero_le j) hj) hend
    simpa using this
  | succ a =>
    have hprev : cells.getD (a + 1 - 1) emptyTile = emptyTile := by
      rcases hstart with h | h
      · omega
      · exact h
    exact run_mem_splitRuns_inner cells (a + 1) b [] (by omega) hab hb
      hprev hnonempty hend

lemma globalScan_line (lex : List (List Char)) (b : Board) (horizontal : Bool)
    (r c : Nat) (word : List Char)
    (hscan : globalScan lex b horizontal r c word = true)
    (flip : Bool) (sr : Nat) (hsr : sr < b.size) :
    scanLine lex [] (maskedLine b horizontal r c word flip sr) = true := by
  unfold globalScan at hscan
  rw [List.all_eq_true] at hscan
  have hflip := hscan flip (by cases flip <;> simp)
  rw [List.all_eq_true] at hflip
  exact hflip sr (List.mem_range.mpr hsr)

lemma valid_globalScan (lex : List (List Char)) (b : Board)
    (horizontal : Bool) (r c : Nat) (word : List Char)
    (hv : isValidPlacement lex b horizontal r c word = true) :
    globalScan lex b horizontal r c word = true := by
  rw [isValidPlacement_eq_gate] at hv
  simp only [Bool.and_eq_true] at hv
  exact hv.2

/-- After a commit the visible line equals the line the validator
simulated with `getWordMask`. -/
lemma lineOf_place_eq_maskedLine (b : Board) (word : List Char)
    (horizontal : Bool) (r c : Nat) (flip : Bool) (sr : Nat) :
    lineOf (actuallyPlaceWord b word horizontal r c) flip sr =
      maskedLine b horizontal r c word flip sr := by
  unfold lineOf maskedLine
  rw [actuallyPlaceWord_size]
  refine List.map_congr_left ?_
  intro sc _
  exact placed_tiles b word horizontal r c _ _

/-- One generation step of `makePuzzle`: a placement that is geometrically
feasible (every covered cell in bounds) and accepted by the validator is
committed with `actuallyPlaceWord`. -/
def feasible (b : Board) (horizontal : Bool) (r c : Nat)
    (word : List Char) : Prop :=
  ∀ i, i < word.length →
    r + (getDeltas horizontal).1 * i < b.size ∧
    c + (getDeltas horizontal).2 * i < b.size

/-- The grid states reachable in one generation run: the all-empty grid,
stepped by committed (feasible and validated) placements. -/
inductive Reachable (lex : List (List Char)) (n : Nat) : Board → Prop
  | init : Reachable lex n (initBoard n)
  | step (b : Board) (horizontal : Bool) (r c : Nat) (word : List Char) :
      Reachable lex n b →
      feasible b horizontal r c word →
      isValidPlacement lex b horizontal r c word = true →
      Reachable lex n (actuallyPlaceWord b word horizontal r c)

lemma gridValid_initBoard (lex : List (List Char)) (n : Nat) :
    gridValid lex (initBoard n) := by
  intro flip sr _ a b hrun _
  exfalso
  obtain ⟨hab, hb, hnonempty, _, _⟩ := hrun
  have hlen : (lineOf (initBoard n) flip sr).length = n := by
    simp [lineOf, initBoard]
  have hcell : (lineOf (initBoard n) flip sr).getD a emptyTile = emptyTile := by
    have ha : a < n := by omega
    unfold lineOf
    rw [List.getD_eq_getElem?_getD]
    simp [initBoard, List.getElem?_map, List.getElem?_range ha]
  exact hnonempty a (Nat.le_refl a) hab hcell

lemma gridValid_step (lex : List (List Char)) (b : Board)
    (horizontal : Bool) (r c : Nat) (word : List Char)
    (hv : isValidPlacement lex b horizontal r c word = true) :
    gridValid lex (actuallyPlaceWord b word horizontal r c) := by
  intro flip sr hsr a bb hrun hlen
  have hsr' : sr < b.size := by
    rw [actuallyPlaceWord_size] at hsr; exact hsr
  have hline := lineOf_place_eq_maskedLine b word horizontal r c flip sr
  have hscan := globalScan_line lex b horizontal r c word
    (valid_globalScan lex b horizontal r c word hv) flip sr hsr'
  rw [← hline] at hscan
  have hall := (scanLine_iff_splitRuns lex _ []).mp hscan
  have hmem := maximalRun_mem_splitRuns _ a bb hrun
  refine hall _ hmem ?_
  obtain ⟨hab, hb, _, _, _⟩ := hrun
  rw [List.length_take, List.length_drop]
  omega

/-- C1: every grid state reachable in a generation run — starting from
the all-empty grid and stepping by committed placements — satisfies the
invariant that every maximal horizontal and vertical run of length at
least 2 spells a lexicon word. -/
theorem c1_grid_validity_invariant (lex : List (List Char)) (n : Nat)
    (b : Board) (h : Reachable lex n b) : gridValid lex b := by
  induction h with
  | init => exact gridValid_initBoard lex n
  | step b horizontal r c word _ _ hv _ =>
    exact gridValid_step lex b horizontal r c word hv

/-- Witness for C1: the board obtained by committing the feasible, valid
placement of `"ab"` on the empty 2 by 2 board satisfies the invariant. -/
theorem c1_grid_validity_invariant_witness :
    gridValid [['a', 'b']]
      (actuallyPlaceWord (initBoard 2) ['a', 'b'] true 0 0) :=
  c1_grid_validity_invariant [['a', 'b']] 2 _
    (Reachable.step (initBoard 2) true 0 0 ['a', 'b'] Reachable.init
      (by unfold feasible; decide) (by decide))

/-! ### Candidate enumeration of one trial cycle -/

/-- The candidate placements one trial cycle enumerates, in loop order:
horizontal with `r < size` and `c <= size - word.length` (the JS bound,
which admits no `c` at all once the word is longer than the row), then
vertical with the roles of the bounds swapped. -/
def candidatePlacements (b : Board) (word : List Char) :
    List (Bool × Nat × Nat) :=
  ((List.range b.size).flatMap fun r =>
    (List.range (b.size + 1 - word.length)).map fun c => (true, r, c))
  ++ ((List.range (b.size + 1 - word.length)).flatMap fun r =>
    (List.range b.size).map fun c => (false, r, c))

/-- The `validPlacements` list built by one trial cycle of `makePuzzle`:
every geometrically feasible start position, kept when
`isValidPlacement` accepts it, horizontal sweep first. -/
def validPlacements (lex : List (List Char)) (b : Board)
    (word : List Char) : List (Bool × Nat × Nat) :=
  ((List.range b.size).flatMap fun r =>
    (List.range (b.size + 1 - word.length)).filterMap fun c =>
      if isValidPlacement lex b true r c word then some (true, r, c)
      else none)
  ++ ((List.range (b.size + 1 - word.length)).flatMap fun r =>
    (List.range b.size).filterMap fun c =>
      if isValidPlacement lex b false r c word then some (false, r, c)
      else none)

/-- The tail of one trial cycle: if any candidate passed, commit one of
them (the random index modelled by `pick`), otherwise leave the board
unchanged. -/
def placeCycle (lex : List (List Char)) (b : Board) (word : List Char)
    (pick : Nat) : Board :=
  let vp := validPlacements lex b word
  if 0 < vp.length then
    let p := vp.getD (pick % vp.length) (true, 0, 0)
    actuallyPlaceWord b word p.1 p.2.1 p.2.2
  else b

lemma filterMap_if_eq_filter_map {α β : Type} (l : List α) (g : α → β)
    (p : β → Bool) :
    (l.filterMap fun x => if p (g x) then some (g x) else none) =
      (l.map g).filter p := by
  induction l with
  | nil => rfl
  | cons a l ih =>
    cases hp : p (g a) with
    | true => simp [List.filterMap_cons, List.filter_cons, hp, ih]
    | false => simp [List.filterMap_cons, List.filter_cons, hp, ih]

lemma validPlacements_eq_filter (lex : List (List Char)) (b : Board)
    (word : List Char) :
    validPlacements lex b word =
      (candidatePlacements b word).filter fun p =>
        isValidPlacement lex b p.1 p.2.1 p.2.2 word := by
  unfold validPlacements candidatePlacements
  rw [List.filter_append]
  congr 1
  · rw [List.filter_flatMap]
    refine List.flatMap_congr ?_  -- per row
    intro r _
    have := filterMap_if_eq_filter_map (List.range (b.size + 1 - word.length))
      (fun c => ((true, r, c) : Bool × Nat × Nat))
      (fun p => isValidPlacement lex b p.1 p.2.1 p.2.2 word)
    simpa using this
  · rw [List.filter_flatMap]
    refine List.flatMap_congr ?_
    intro r _
    have := filterMap_if_eq_filter_map (List.range b.size)
      (fun c => ((false, r, c) : Bool × Nat × Nat))
      (fun p => isValidPlacement lex b p.1 p.2.1 p.2.2 word)
    simpa using this

lemma mem_candidatePlacements (b : Board) (word : List Char)
    (h : Bool) (r c : Nat) :
    (h, r, c) ∈ candidatePlacements b word ↔
      ((h = true ∧ r < b.size ∧ c + word.length ≤ b.size) ∨
       (h = false ∧ r + word.length ≤ b.size ∧ c < b.size)) := by
  unfold candidatePlacements
  simp only [List.mem_append, List.mem_flatMap, List.mem_map, List.mem_range,
    Prod.mk.injEq]
  constructor
  · rintro (⟨r0, hr0, c0, hc0, hh, hr, hc⟩ | ⟨r0, hr0, c0, hc0, hh, hr, hc⟩)
    · subst hh; subst hr; subst hc
      left; exact ⟨rfl, hr0, by omega⟩
    · subst hh; subst hr; subst hc
      right; exact ⟨rfl, by omega, hc0⟩
  · rintro (⟨hh, hr, hc⟩ | ⟨hh, hr, hc⟩)
    · exact Or.inl ⟨r, hr, c, by omega, hh.symm, rfl, rfl⟩
    · exact Or.inr ⟨r, by omega, c, hc, hh.symm, rfl, rfl⟩

lemma candidatePlacements_nil (b : Board) (word : List Char)
    (h : b.size < word.length) :
    candidatePlacements b word = [] := by
  unfold candidatePlacements
  have h0 : b.size + 1 - word.length = 0 := by omega
  rw [h0]
  simp

lemma validPlacements_nil (lex : List (List Char)) (b : Board)
    (word : List Char) (h : b.size < word.length) :
    validPlacements lex b word = [] := by
  rw [validPlacements_eq_filter, candidatePlacements_nil b word h]
  rfl

/-- C6: the placements a trial cycle evaluates are exactly the
geometrically feasible ones — horizontal at every `(r, c)` with
`c + len ≤ N`, vertical at every `(r, c)` with `r + len ≤ N` — the
collected list is precisely the feasible candidates that pass the
validator, and a word longer than the board yields no candidate at all,
so the cycle leaves the board unchanged without any error. -/
theorem c6_candidate_enumeration (lex : List (List Char)) (b : Board)
    (word : List Char) (h : Bool) (r c pick : Nat) :
    ((h, r, c) ∈ candidatePlacements b word ↔
      ((h = true ∧ r < b.size ∧ c + word.length ≤ b.size) ∨
       (h = false ∧ r + word.length ≤ b.size ∧ c < b.size))) ∧
    validPlacements lex b word =
      (candidatePlacements b word).filter (fun p =>
        isValidPlacement lex b p.1 p.2.1 p.2.2 word) ∧
    (b.size < word.length →
      validPlacements lex b word = [] ∧ placeCycle lex b word pick = b) := by
  refine ⟨mem_candidatePlacements b word h r c,
    validPlacements_eq_filter lex b word, ?_⟩
  intro hlong
  refine ⟨validPlacements_nil lex b word hlong, ?_⟩
  unfold placeCycle
  rw [validPlacements_nil lex b word hlong]
  rfl

/-- Witness for C6 at concrete inputs: lexicon `{"abc"}`, an empty 2 by 2
board and the word `"abc"` (longer than the board). -/
theorem c6_candidate_enumeration_witness :
    (((true, 0, 0) : Bool × Nat × Nat) ∈
        candidatePlacements (initBoard 2) ['a', 'b', 'c'] ↔
      ((true = true ∧ 0 < (initBoard 2).size ∧
          0 + (['a', 'b', 'c'] : List Char).length ≤ (initBoard 2).size) ∨
       (true = false ∧ 0 + (['a', 'b', 'c'] : List Char).length ≤
          (initBoard 2).size ∧ 0 < (initBoard 2).size))) ∧
    validPlacements [['a', 'b', 'c']] (initBoard 2) ['a', 'b', 'c'] =
      (candidatePlacements (initBoard 2) ['a', 'b', 'c']).filter (fun p =>
        isValidPlacement [['a', 'b', 'c']] (initBoard 2) p.1 p.2.1 p.2.2
          ['a', 'b', 'c']) ∧
    ((initBoard 2).size < (['a', 'b', 'c'] : List Char).length →
      validPlacements [['a', 'b', 'c']] (initBoard 2) ['a', 'b', 'c'] = [] ∧
      placeCycle [['a', 'b', 'c']] (initBoard 2) ['a', 'b', 'c'] 0 =
        initBoard 2) :=
  c6_candidate_enumeration [['a', 'b', 'c']] (initBoard 2) ['a', 'b', 'c']
    true 0 0 0

/-! ### The generation run -/

/-- The trial loop of `makePuzzle`.  Each cycle draws
`WORDS[Math.floor(Math.random() * WORDS.length)]`, modelled as index
`pickWord i % max WORDS.length 1` (for an empty list the JS index is `0`);
an out-of-range read yields JS `undefined`, and the subsequent
`word.length` access throws — modelled by `none`.  Otherwise the cycle
enumerates, validates and possibly commits one placement
(`placeCycle`). -/
def makePuzzleGo (WORDS : List (List Char)) (pickWord pickPlace : Nat → Nat) :
    Nat → Nat → Board → Option Board
  | 0, _, b => some b
  | cycles + 1, i, b =>
    match WORDS.get? (pickWord i % max WORDS.length 1) with
    | none => none
    | some word =>
      makePuzzleGo WORDS pickWord pickPlace cycles (i + 1)
        (placeCycle WORDS b word (pickPlace i))

/-- `makePuzzle(cycles)`: reset the placement counter, then run the trial
loop; `none` models a thrown JS fault. -/
def makePuzzle (WORDS : List (List Char)) (pickWord pickPlace : Nat → Nat)
    (cycles : Nat) (b : Board) : Option Board :=
  makePuzzleGo WORDS pickWord pickPlace cycles 0
    { b with totalPlacements := 0 }

/-- C9 counterexample: with an empty word source, the very first cycle's
draw reads `WORDS[0]` of an empty array (`undefined` in JS) and the
following `word.length` access throws, so the default 50000-cycle run
faults (`none`) instead of completing with the empty grid. -/
theorem c9_counterexample :
    makePuzzle [] (fun _ => 0) (fun _ => 0) 50000 (initBoard 15) = none := by
  rfl

lemma makePuzzleGo_unusable (WORDS : List (List Char))
    (pickWord pickPlace : Nat → Nat) (n : Nat)
    (hne : WORDS ≠ [])
    (hlong : ∀ w ∈ WORDS, n < w.length) :
    ∀ (cycles i : Nat),
      makePuzzleGo WORDS pickWord pickPlace cycles i (initBoard n) =
        some (initBoard n) := by
  intro cycles
  induction cycles with
  | zero => intro i; rfl
  | succ cycles ih =>
    intro i
    have hlen : 0 < WORDS.length := List.length_pos.mpr hne
    have hmax : max WORDS.length 1 = WORDS.length := by omega
    have hidx : pickWord i % max WORDS.length 1 < WORDS.length := by
      rw [hmax]; exact Nat.mod_lt _ hlen
    unfold makePuzzleGo
    rw [List.get?_eq_get hidx]
    have hword : WORDS.get ⟨pickWord i % max WORDS.length 1, hidx⟩ ∈ WORDS :=
      WORDS.get_mem _ hidx
    have hempty : placeCycle WORDS (initBoard n)
        (WORDS.get ⟨pickWord i % max WORDS.length 1, hidx⟩) (pickPlace i) =
        initBoard n := by
      unfold placeCycle
      rw [validPlacements_nil WORDS (initBoard n) _ (hlong _ hword)]
      rfl
    show makePuzzleGo WORDS pickWord pickPlace cycles (i + 1)
      (placeCycle WORDS (initBoard n)
        (WORDS.get ⟨pickWord i % max WORDS.length 1, hidx⟩) (pickPlace i)) =
      some (initBoard n)
    rw [hempty]
    exact ih (i + 1)

/-- C9 amended: a word source whose entries are all longer than the board
(an unusable but non-empty lexicon) makes every trial geometrically
infeasible; the run then completes all its cycles without fault and
returns the all-empty grid with placement counter 0.  A literally empty
word source, by contrast, faults on the first draw (see the
counterexample). -/
theorem c9_unusable_lexicon_degrades (WORDS : List (List Char))
    (pickWord pickPlace : Nat → Nat) (cycles n : Nat)
    (hne : WORDS ≠ [])
    (hlong : ∀ w ∈ WORDS, n < w.length) :
    makePuzzle WORDS pickWord pickPlace cycles (initBoard n) =
      some (initBoard n) := by
  unfold makePuzzle
  have hinit : ({ initBoard n with totalPlacements := 0 } : Board) =
      initBoard n := rfl
  rw [hinit]
  exact makePuzzleGo_unusable WORDS pickWord pickPlace n hne hlong cycles 0

/-- Witness for the amended C9: word source `{"abc"}` on a 2 by 2 board,
3 cycles. -/
theorem c9_unusable_lexicon_degrades_witness :
    makePuzzle [['a', 'b', 'c']] (fun _ => 0) (fun _ => 0) 3 (initBoard 2) =
      some (initBoard 2) :=
  c9_unusable_lexicon_degrades [['a', 'b', 'c']] (fun _ => 0) (fun _ => 0) 3 2
    (by simp) (by decide)

/-! ### Best-of-N search (`createBoard`) -/

/-- The `while (Date.now() - startTime < searchTimeSeconds * 1000)` loop.
`elapsed k` is the elapsed-milliseconds observation at the `k`-th check
and `gen k` the board built by the `k`-th `new Board(size)`; `fuel`
bounds the number of unfoldings (any bound past the first failing check
gives the same result).  State: current iteration `n` (equal to
`boardsGenerated`), best board so far, best density so far. -/
def createBoardAux (budget : Int) (elapsed : Nat → Int) (gen : Nat → Board) :
    Nat → Nat → Option Board → ℚ → Option Board × Nat
  | 0, n, best, _ => (best, n)
  | fuel + 1, n, best, bestDensity =>
    if elapsed n < budget * 1000 then
      if bestDensity < density (gen n) then
        createBoardAux budget elapsed gen fuel (n + 1) (some (gen n))
          (density (gen n))
      else
        createBoardAux budget elapsed gen fuel (n + 1) best bestDensity
    else (best, n)

/-- `createBoard(searchTimeSeconds, size)`: best board of the timed loop
plus the number of boards generated (null and 0 when no pass ran). -/
def createBoard (budget : Int) (elapsed : Nat → Int) (gen : Nat → Board)
    (fuel : Nat) : Option Board × Nat :=
  createBoardAux budget elapsed gen fuel 0 none 0

/-- C7: with a zero or negative wall-clock budget the very first check
fails (elapsed time is never negative), so no generation pass runs and
the result is the null grid with generation count 0 — a plain value, not
an error. -/
theorem c7_zero_budget_null (budget : Int) (elapsed : Nat → Int)
    (gen : Nat → Board) (fuel : Nat)
    (hb : budget ≤ 0) (he : 0 ≤ elapsed 0) :
    createBoard budget elapsed gen fuel = (none, 0) := by
  unfold createBoard
  cases fuel with
  | zero => rfl
  | succ fuel =>
    unfold createBoardAux
    rw [if_neg (by omega)]

/-- Witness for C7: budget 0, a clock stuck at 0, any generator. -/
theorem c7_zero_budget_null_witness :
    createBoard 0 (fun _ => 0) (fun _ => initBoard 1) 3 = (none, 0) :=
  c7_zero_budget_null 0 (fun _ => 0) (fun _ => initBoard 1) 3
    (by decide) (by decide)

lemma occupiedCount_initBoard (n : Nat) : occupiedCount (initBoard n) = 0 := by
  unfold occupiedCount
  have hrow : ∀ sr, (List.range (initBoard n).size).countP
      (fun sc => !((initBoard n).tiles sr sc == emptyTile)) = 0 := by
    intro sr
    refine List.countP_eq_zero.mpr ?_
    intro sc _
    simp [initBoard]
  simp only [hrow, List.map_const]
  simp

lemma density_initBoard (n : Nat) : density (initBoard n) = 0 := by
  unfold density
  rw [occupiedCount_initBoard]
  simp

/-- C8 counterexample: one full pass inside the budget, but the generated
board is the all-empty grid (a real generator output whenever the lexicon
is unusable), whose density 0 never beats the initial best of 0 under the
strict `density > bestDensity` test — so the count is 1 yet the returned
grid is null, contradicting "count ≥ 1 implies non-null". -/
theorem c8_counterexample :
    (createBoard 1 (fun k => 2000 * (k : Int)) (fun _ => initBoard 2) 2).2 = 1 ∧
    (createBoard 1 (fun k => 2000 * (k : Int)) (fun _ => initBoard 2) 2).1 =
      none := by
  have h : createBoard 1 (fun k => 2000 * (k : Int)) (fun _ => initBoard 2) 2 =
      (none, 1) := by
    unfold createBoard createBoardAux
    rw [if_pos (by norm_num), if_neg (by rw [density_initBoard]; exact lt_irrefl 0)]
    unfold createBoardAux
    rw [if_neg (by norm_num)]
  rw [h]
  exact ⟨rfl, rfl⟩

lemma createBoardAux_invariant (budget : Int) (elapsed : Nat → Int)
    (gen : Nat → Board) :
    ∀ (fuel n : Nat) (best : Option Board) (bestD : ℚ),
      0 ≤ bestD →
      (∀ bb, best = some bb →
        density bb = bestD ∧ ∃ i, i < n ∧ gen i = bb) →
      (best = none → bestD = 0) →
      (∀ j, j < n → density (gen j) ≤ bestD) →
      ∃ best2 n2 bestD2,
        createBoardAux budget elapsed gen fuel n best bestD = (best2, n2) ∧
        0 ≤ bestD2 ∧
        (∀ bb, best2 = some bb →
          density bb = bestD2 ∧ ∃ i, i < n2 ∧ gen i = bb) ∧
        (best2 = none → bestD2 = 0) ∧
        (∀ j, j < n2 → density (gen j) ≤ bestD2) := by
  intro fuel
  induction fuel with
  | zero =>
    intro n best bestD h0 hsome hnone hall
    exact ⟨best, n, bestD, rfl, h0, hsome, hnone, hall⟩
  | succ fuel ih =>
    intro n best bestD h0 hsome hnone hall
    unfold createBoardAux
    by_cases htime : elapsed n < budget * 1000
    · rw [if_pos htime]
      by_cases hbeat : bestD < density (gen n)
      · rw [if_pos hbeat]
        refine ih (n + 1) (some (gen n)) (density (gen n))
          (le_trans h0 (le_of_lt hbeat)) ?_ ?_ ?_
        · intro bb hbb
          obtain rfl : gen n = bb := Option.some.injEq .. ▸ hbb
          exact ⟨rfl, n, Nat.lt_succ_self n, rfl⟩
        · intro hcon; exact absurd hcon (by simp)
        · intro j hj
          rcases Nat.lt_succ_iff_lt_or_eq.mp hj with hj' | hj'
          · exact le_trans (hall j hj') (le_of_lt hbeat)
          · rw [hj']
      · rw [if_neg hbeat]
        push_neg at hbeat
        refine ih (n + 1) best bestD h0 ?_ hnone ?_
        · intro bb hbb
          obtain ⟨hd, i, hi, hgen⟩ := hsome bb hbb
          exact ⟨hd, i, Nat.lt_succ_of_lt hi, hgen⟩
        · intro j hj
          rcases Nat.lt_succ_iff_lt_or_eq.mp hj with hj' | hj'
          · exact hall j hj'
          · rw [hj']; exact hbeat
    · rw [if_neg htime]
      exact ⟨best, n, bestD, rfl, h0, hsome, hnone, hall⟩

/-- C8 amended: `createBoard` returns either a board it generated whose
density is maximal among all generated boards, or — exactly when every
generated board has density 0, the strict improvement test never firing —
the null grid; `.2` counts one generation per completed loop pass.  In
particular a count of at least 1 guarantees a non-null grid only if some
generated board has positive density. -/
theorem c8_best_of_n (budget : Int) (elapsed : Nat → Int)
    (gen : Nat → Board) (fuel : Nat) :
    (∃ bb, (createBoard budget elapsed gen fuel).1 = some bb ∧
      (∃ i, i < (createBoard budget elapsed gen fuel).2 ∧ gen i = bb) ∧
      (∀ j, j < (createBoard budget elapsed gen fuel).2 →
        density (gen j) ≤ density bb)) ∨
    ((createBoard budget elapsed gen fuel).1 = none ∧
      ∀ j, j < (createBoard budget elapsed gen fuel).2 →
        density (gen j) ≤ 0) := by
  obtain ⟨best2, n2, bestD2, heq, h0, hsome, hnone, hall⟩ :=
    createBoardAux_invariant budget elapsed gen fuel 0 none 0
      (le_refl 0) (by intro bb hbb; exact absurd hbb (by simp))
      (fun _ => rfl) (by intro j hj; omega)
  unfold createBoard
  rw [heq]
  cases best2 with
  | none =>
    right
    refine ⟨rfl, ?_⟩
    intro j hj
    rw [← hnone rfl]
    exact hall j hj
  | some bb =>
    left
    obtain ⟨hd, i, hi, hgen⟩ := hsome bb rfl
    refine ⟨bb, rfl, ⟨i, hi, hgen⟩, ?_⟩
    intro j hj
    rw [hd]
    exact hall j hj

/-! ### A bounds-checked validator (no-throw / totality of
`isValidPlacement`) -/

/-- A tile read `this.tiles[sr][sc]` with the JS out-of-bounds fault made
explicit (`none` models reading a row that is `undefined` or a column
past the array). -/
def tileGet? (b : Board) (sr sc : Nat) : Option Char :=
  if sr < b.size ∧ sc < b.size then some (b.tiles sr sc) else none

/-- `getWordMask` with checked tile reads (the word-letter branch reads
only the word string, which cannot fault in JS). -/
def getWordMaskChecked (b : Board) (horizontal : Bool) (r c : Nat)
    (word : List Char) (searchRow searchColumn : Nat) : Option Char :=
  if horizontal then
    if searchRow ≠ r ∨ searchColumn < c ∨ c + word.length ≤ searchColumn then
      tileGet? b searchRow searchColumn
    else some (word.getD (searchColumn - c) emptyTile)
  else
    if searchColumn ≠ c ∨ searchRow < r ∨ r + word.length ≤ searchRow then
      tileGet? b searchRow searchColumn
    else some (word.getD (searchRow - r) emptyTile)

/-- The conflict loop with checked tile reads: outer `none` is a fault,
`some none` the early `return false`, `some (some (o, s))` the counts. -/
def conflictGoChecked (b : Board) (dr dc r c : Nat) :
    List Char → Nat → Nat → Nat → Option (Option (Nat × Nat))
  | [], _, overlaps, standalone => some (some (overlaps, standalone))
  | ch :: rest, i, overlaps, standalone =>
    match tileGet? b (r + dr * i) (c + dc * i) with
    | none => none
    | some boardTile =>
      if boardTile ≠ emptyTile then
        if boardTile ≠ ch then some none
        else conflictGoChecked b dr dc r c rest (i + 1) (overlaps + 1)
          standalone
      else conflictGoChecked b dr dc r c rest (i + 1) overlaps
        (standalone + 1)

/-- Sequence a list of fallible reads, stopping at the first fault. -/
def optionTraverse {α β : Type} (f : α → Option β) : List α → Option (List β)
  | [] => some []
  | x :: xs =>
    match f x, optionTraverse f xs with
    | some y, some ys => some (y :: ys)
    | _, _ => none

/-- The masked line of the rescan, with checked reads. -/
def maskedLineChecked (b : Board) (horizontal : Bool) (r c : Nat)
    (word : List Char) (flip : Bool) (sr : Nat) : Option (List Char) :=
  optionTraverse
    (fun sc => getWordMaskChecked b horizontal r c word
      (if flip then sc else sr) (if flip then sr else sc))
    (List.range b.size)

/-- `isValidPlacement` with every tile read checked: `none` exactly when
the original JS code would fault. -/
def isValidPlacementChecked (lex : List (List Char)) (b : Board)
    (horizontal : Bool) (r c : Nat) (word : List Char) : Option Bool :=
  match conflictGoChecked b (getDeltas horizontal).1 (getDeltas horizontal).2
      r c word 0 0 0 with
  | none => none
  | some none => some false
  | some (some (overlaps, standalone)) =>
    if (0 < b.totalPlacements ∧ overlaps = 0) ∨ standalone = 0 then
      some false
    else
      match optionTraverse
          (fun flip => optionTraverse
            (fun sr => maskedLineChecked b horizontal r c word flip sr)
            (List.range b.size))
          [false, true] with
      | none => none
      | some liness =>
        some (liness.all fun lines => lines.all fun line =>
          scanLine lex [] line)

lemma all_map_eq {α β : Type} (l : List α) (f : α → β) (p : β → Bool) :
    (l.map f).all p = l.all fun x => p (f x) := by
  induction l with
  | nil => rfl
  | cons x xs ih => simp [List.all_cons, ih]

lemma optionTraverse_eq_map {α β : Type} (f : α → Option β) (g : α → β) :
    ∀ l : List α, (∀ x ∈ l, f x = some (g x)) →
      optionTraverse f l = some (l.map g) := by
  intro l
  induction l with
  | nil => intro _; rfl
  | cons x xs ih =>
    intro hall
    unfold optionTraverse
    rw [hall x (List.mem_cons_self _ _), ih fun y hy =>
      hall y (List.mem_cons_of_mem _ hy)]
    rfl

lemma getWordMaskChecked_eq (b : Board) (horizontal : Bool) (r c : Nat)
    (word : List Char) (sr sc : Nat)
    (hsr : sr < b.size) (hsc : sc < b.size) :
    getWordMaskChecked b horizontal r c word sr sc =
      some (getWordMask b horizontal r c word sr sc) := by
  cases horizontal with
  | true =>
    show (if sr ≠ r ∨ sc < c ∨ c + word.length ≤ sc then tileGet? b sr sc
      else some (word.getD (sc - c) emptyTile)) =
      some (if sr ≠ r ∨ sc < c ∨ c + word.length ≤ sc then b.tiles sr sc
        else word.getD (sc - c) emptyTile)
    by_cases hg : sr ≠ r ∨ sc < c ∨ c + word.length ≤ sc
    · rw [if_pos hg, if_pos hg]
      unfold tileGet?
      rw [if_pos ⟨hsr, hsc⟩]
    · rw [if_neg hg, if_neg hg]
  | false =>
    show (if sc ≠ c ∨ sr < r ∨ r + word.length ≤ sr then tileGet? b sr sc
      else some (word.getD (sr - r) emptyTile)) =
      some (if sc ≠ c ∨ sr < r ∨ r + word.length ≤ sr then b.tiles sr sc
        else word.getD (sr - r) emptyTile)
    by_cases hg : sc ≠ c ∨ sr < r ∨ r + word.length ≤ sr
    · rw [if_pos hg, if_pos hg]
      unfold tileGet?
      rw [if_pos ⟨hsr, hsc⟩]
    · rw [if_neg hg, if_neg hg]

lemma conflictGoChecked_eq (b : Board) (dr dc r c : Nat) :
    ∀ (rest : List Char) (i o s : Nat),
      (∀ j, j < rest.length →
        r + dr * (i + j) < b.size ∧ c + dc * (i + j) < b.size) →
      conflictGoChecked b dr dc r c rest i o s =
        some (conflictLoopGo b dr dc r c rest i o s) := by
  intro rest
  induction rest with
  | nil => intro i o s _; rfl
  | cons ch rest ih =>
    intro i o s hbounds
    have h0 := hbounds 0 (by simp)
    rw [Nat.add_zero] at h0
    have htile : tileGet? b (r + dr * i) (c + dc * i) =
        some (b.tiles (r + dr * i) (c + dc * i)) := by
      unfold tileGet?
      rw [if_pos h0]
    have hrest : ∀ j, j < rest.length →
        r + dr * (i + 1 + j) < b.size ∧ c + dc * (i + 1 + j) < b.size := by
      intro j hj
      have := hbounds (j + 1) (by simp only [List.length_cons]; omega)
      rw [show i + (j + 1) = i + 1 + j from by omega] at this
      exact this
    show (match tileGet? b (r + dr * i) (c + dc * i) with
      | none => none
      | some boardTile =>
        if boardTile ≠ emptyTile then
          if boardTile ≠ ch then some none
          else conflictGoChecked b dr dc r c rest (i + 1) (o + 1) s
        else conflictGoChecked b dr dc r c rest (i + 1) o (s + 1)) = _
    rw [htile]
    show (if b.tiles (r + dr * i) (c + dc * i) ≠ emptyTile then
        if b.tiles (r + dr * i) (c + dc * i) ≠ ch then some none
        else conflictGoChecked b dr dc r c rest (i + 1) (o + 1) s
      else conflictGoChecked b dr dc r c rest (i + 1) o (s + 1)) = _
    have hunf : conflictLoopGo b dr dc r c (ch :: rest) i o s =
        (if b.tiles (r + dr * i) (c + dc * i) ≠ emptyTile then
          if b.tiles (r + dr * i) (c + dc * i) ≠ ch then none
          else conflictLoopGo b dr dc r c rest (i + 1) (o + 1) s
        else conflictLoopGo b dr dc r c rest (i + 1) o (s + 1)) := rfl
    by_cases hne : b.tiles (r + dr * i) (c + dc * i) ≠ emptyTile
    · rw [if_pos hne]
      by_cases hch : b.tiles (r + dr * i) (c + dc * i) ≠ ch
      · rw [if_pos hch, hunf, if_pos hne, if_pos hch]
      · rw [if_neg hch, ih (i + 1) (o + 1) s hrest, hunf, if_pos hne,
          if_neg hch]
    · rw [if_neg hne, ih (i + 1) o (s + 1) hrest, hunf, if_neg hne]

lemma maskedLineChecked_eq (b : Board) (horizontal : Bool) (r c : Nat)
    (word : List Char) (flip : Bool) (sr : Nat) (hsr : sr < b.size) :
    maskedLineChecked b horizontal r c word flip sr =
      some (maskedLine b horizontal r c word flip sr) := by
  unfold maskedLineChecked maskedLine
  refine optionTraverse_eq_map _ _ _ ?_
  intro sc hsc
  have hsc' : sc < b.size := List.mem_range.mp hsc
  cases flip with
  | true => exact getWordMaskChecked_eq b horizontal r c word sc sr hsc' hsr
  | false => exact getWordMaskChecked_eq b horizontal r c word sr sc hsr hsc'

/-- C3: for every geometrically feasible placement, the bounds-checked
evaluation of the validator faults nowhere and returns exactly the
boolean of the pure predicate `isValidPlacement`; the embedding of the
validator is a pure function of the board, which is passed and returned
untouched (no tile nor the placement counter is written). -/
theorem c3_validator_total (lex : List (List Char)) (b : Board)
    (horizontal : Bool) (r c : Nat) (word : List Char)
    (hfe : feasible b horizontal r c word) :
    isValidPlacementChecked lex b horizontal r c word =
      some (isValidPlacement lex b horizontal r c word) := by
  have hconf := conflictGoChecked_eq b (getDeltas horizontal).1
    (getDeltas horizontal).2 r c word 0 0 0
    (by intro j hj; rw [Nat.zero_add]; exact hfe j hj)
  unfold isValidPlacementChecked isValidPlacement
  rw [hconf]
  cases hgo : conflictLoopGo b (getDeltas horizontal).1
      (getDeltas horizontal).2 r c word 0 0 0 with
  | none => rfl
  | some pair =>
    obtain ⟨o, s⟩ := pair
    show (if (0 < b.totalPlacements ∧ o = 0) ∨ s = 0 then some false
      else match optionTraverse
          (fun flip => optionTraverse
            (fun sr => maskedLineChecked b horizontal r c word flip sr)
            (List.range b.size))
          [false, true] with
      | none => none
      | some liness =>
        some (liness.all fun lines => lines.all fun line =>
          scanLine lex [] line)) =
      some (if (0 < b.totalPlacements ∧ o = 0) ∨ s = 0 then false
        else globalScan lex b horizontal r c word)
    by_cases hgate : (0 < b.totalPlacements ∧ o = 0) ∨ s = 0
    · rw [if_pos hgate, if_pos hgate]
    · rw [if_neg hgate, if_neg hgate]
      have htrav : optionTraverse
          (fun flip => optionTraverse
            (fun sr => maskedLineChecked b horizontal r c word flip sr)
            (List.range b.size))
          [false, true] =
          some ([false, true].map fun flip =>
            (List.range b.size).map fun sr =>
              maskedLine b horizontal r c word flip sr) := by
        refine optionTraverse_eq_map _ _ _ ?_
        intro flip _
        refine optionTraverse_eq_map _ _ _ ?_
        intro sr hsr
        exact maskedLineChecked_eq b horizontal r c word flip sr
          (List.mem_range.mp hsr)
      rw [htrav]
      show some _ = some (globalScan lex b horizontal r c word)
      congr 1
      unfold globalScan
      simp only [all_map_eq, List.all_cons, List.all_nil]

/-- Witness for C3: the feasible placement of `"ab"` at the origin of an
empty 2 by 2 board, lexicon `{"ab"}`. -/
theorem c3_validator_total_witness :
    isValidPlacementChecked [['a', 'b']] (initBoard 2) true 0 0 ['a', 'b'] =
      some (isValidPlacement [['a', 'b']] (initBoard 2) true 0 0 ['a', 'b']) :=
  c3_validator_total [['a', 'b']] (initBoard 2) true 0 0 ['a', 'b']
    (by unfold feasible; decide)

/-! ### Lexicon membership -/

/-- `WORD_SET.has(s)`: JS `Set` membership is exact string equality; the
embedding queries the loaded word list with `List.contains`, the same
test `scanLine` applies to accumulated runs. -/
def wordSetHas (WORDS : List (List Char)) (s : List Char) : Bool :=
  WORDS.contains s

/-- Modelled from the spec: "case-insensitive exact match" — two strings
are equal up to letter case when they agree after lowercasing both. -/
def eqUpToCase (a : List Char) (bb : List Char) : Bool :=
  a.map Char.toLower == bb.map Char.toLower

/-- C4 counterexample: with the loaded word `"cat"`, the candidate
`"CAT"` is equal to a loaded word up to letter case, yet membership is
`false` — JS `Set.has` compares exactly, so the claimed case-insensitive
equivalence fails. -/
theorem c4_counterexample :
    ¬ (wordSetHas [['c', 'a', 't']] ['C', 'A', 'T'] = true ↔
       ∃ w ∈ [['c', 'a', 't']], eqUpToCase ['C', 'A', 'T'] w = true) := by
  decide

/-- C4 amended: lexicon membership is a case-SENSITIVE exact whole-string
match — `contains s` is true exactly when `s` itself is one of the loaded
words (an uppercase variant of a loaded lowercase word is NOT a member). -/
theorem c4_membership_exact_match (WORDS : List (List Char)) (s : List Char) :
    wordSetHas WORDS s = true ↔ s ∈ WORDS := by
  unfold wordSetHas
  simp

end Portfolio

